import Mathlib

/-!
Verification of the dynamic value inference and conversion engine of
`terraform-provider-terrakube` (`internal/provider/workspace_data_source.go`):
the functions `inferAttrType`, `convertToAttrValue` and the output projection
loop of `OutputDataSource.Read`, shallowly embedded in Lean.

Modelling conventions:
* A raw Go `interface{}` holding a JSON-decoded document is `JSONValue`.
  JSON `null` decodes to Go `nil`, modelled as `JSONValue.jnull`.
  A dynamic Go kind outside the JSON kinds is `JSONValue.junsupported`.
* Go's `map[string]interface{}` is modelled as an association list
  `List (String × JSONValue)`; a JSON-decoded map has no duplicate keys
  (`Nodup` on the key list where a statement needs it), and lookup is
  first-match, which agrees with Go map lookup on duplicate-free lists.
* terraform-plugin-framework's `attr.Type` values reachable from this code
  form the closed sum `AttrType`.  `types.ObjectType.AttrTypes` is a Go map,
  so `reflect.DeepEqual` on descriptors is key-order-insensitive; the
  embedding canonicalises object descriptors by sorting their field lists by
  key at inference time, so that descriptor equality is plain `=`.
* terraform-plugin-framework's `attr.Value` is modelled as `AttrValue`.
  `AttrValue.goNil` models the Go `nil` interface value (no value at all,
  which the `default:` branch of `convertToAttrValue` returns);
  `AttrValue.nullV t` models the typed nulls `types.BoolNull()`,
  `types.StringNull()`, `types.ListNull(t)`, ...; `AttrValue.unknownV t`
  models the typed unknowns the framework constructors return when their
  element validation fails.
* Every diagnostic this code produces is created with `AddError`, so every
  `Diag` is error-severity and "has an error-severity entry" is "≠ []".
-/

set_option linter.unusedVariables false
set_option linter.unreachableTactic false
set_option linter.unusedTactic false

namespace Terrakube

/-- A JSON-decoded Go `interface{}` value: the dynamic kinds `encoding/json`
produces (nil, bool, float64, string, `[]interface{}`,
`map[string]interface{}`), plus `junsupported` for any other dynamic Go kind
(carrying the printed Go type name). -/
inductive JSONValue where
  | jnull
  | jbool (b : Bool)
  | jnum (q : Rat)
  | jstr (s : String)
  | jarr (elems : List JSONValue)
  | jobj (fields : List (String × JSONValue))
  | junsupported (goType : String)

/-- One diagnostic record.  All diagnostics in the modelled code are created
by `diag.Diagnostics.AddError`, hence error severity. -/
structure Diag where
  summary : String
  detail : String
deriving DecidableEq, Repr

/-- The closed set of `attr.Type` descriptors reachable in this code:
`types.BoolType`, `types.NumberType`, `types.StringType`,
`types.DynamicType`, `types.ListType`, `types.TupleType`,
`types.ObjectType`, `types.MapType`.  Object field lists are canonical
(sorted by key) when produced by inference, making `=` coincide with
`reflect.DeepEqual` on the descriptors this code compares. -/
inductive AttrType where
  | bool
  | number
  | string
  | dynamic
  | list (elemType : AttrType)
  | tuple (elemTypes : List AttrType)
  | object (attrTypes : List (String × AttrType))
  | map (elemType : AttrType)

/-- The `attr.Value` results reachable in this code.  `goNil` is the Go `nil`
interface (returned by the `default:` branch); `nullV t` is the typed null of
type `t`; `unknownV t` is the typed unknown the framework constructors return
when validation fails. -/
inductive AttrValue where
  | goNil
  | nullV (t : AttrType)
  | unknownV (t : AttrType)
  | boolV (b : Bool)
  | numberV (q : Rat)
  | stringV (s : String)
  | listV (elemType : AttrType) (elems : List AttrValue)
  | tupleV (elemTypes : List AttrType) (elems : List AttrValue)
  | objectV (attrTypes : List (String × AttrType)) (attrs : List (String × AttrValue))
  | mapV (elemType : AttrType) (elems : List (String × AttrValue))

/-- First-match association-list lookup; agrees with Go map lookup on
duplicate-free key lists. -/
def alookup {α : Type} (k : String) : List (String × α) → Option α
  | [] => none
  | (k', v) :: rest => if k = k' then some v else alookup k rest

mutual

/-- Model of `reflect.DeepEqual` on the `attr.Type` descriptors this code
compares, and of the framework's `attr.Type.Equal`.  On the canonical
(key-sorted) object descriptors inference produces it coincides with `=`
(`AttrType.beq_iff_eq`). -/
def AttrType.beq : AttrType → AttrType → Bool
  | .bool, .bool => true
  | .number, .number => true
  | .string, .string => true
  | .dynamic, .dynamic => true
  | .list a, .list b => AttrType.beq a b
  | .tuple as, .tuple bs => AttrType.beqList as bs
  | .object fs, .object gs => AttrType.beqFields fs gs
  | .map a, .map b => AttrType.beq a b
  | _, _ => false

/-- Pointwise `AttrType.beq` on descriptor lists. -/
def AttrType.beqList : List AttrType → List AttrType → Bool
  | [], [] => true
  | a :: as, b :: bs => AttrType.beq a b && AttrType.beqList as bs
  | _, _ => false

/-- Pointwise `AttrType.beq` on field lists (keys and types). -/
def AttrType.beqFields : List (String × AttrType) → List (String × AttrType) → Bool
  | [], [] => true
  | (k, a) :: fs, (k', b) :: gs => k == k' && AttrType.beq a b && AttrType.beqFields fs gs
  | _, _ => false

end

theorem AttrType.beqList_iff (as : List AttrType)
    (h : ∀ x ∈ as, ∀ b, (AttrType.beq x b = true ↔ x = b)) :
    ∀ bs, (AttrType.beqList as bs = true ↔ as = bs) := by
  induction as with
  | nil => intro bs; cases bs <;> simp [AttrType.beqList]
  | cons a as ih =>
      intro bs
      cases bs with
      | nil => simp [AttrType.beqList]
      | cons b bs =>
          have ha := h a (by simp) b
          have hrest := ih (fun x hx b' => h x (List.mem_cons_of_mem _ hx) b') bs
          simp [AttrType.beqList, ha, hrest]

theorem AttrType.beqFields_iff (fs : List (String × AttrType))
    (h : ∀ p ∈ fs, ∀ b, (AttrType.beq p.2 b = true ↔ p.2 = b)) :
    ∀ gs, (AttrType.beqFields fs gs = true ↔ fs = gs) := by
  induction fs with
  | nil => intro gs; cases gs <;> simp [AttrType.beqFields]
  | cons p fs ih =>
      intro gs
      obtain ⟨k, a⟩ := p
      cases gs with
      | nil => simp [AttrType.beqFields]
      | cons q gs =>
          obtain ⟨k', b⟩ := q
          have ha := h (k, a) (by simp) b
          have hrest := ih (fun x hx b' => h x (List.mem_cons_of_mem _ hx) b') gs
          simp [AttrType.beqFields, ha, hrest]

/-- `AttrType.beq` is propositional equality: the embedding's descriptors are
canonical, so `reflect.DeepEqual` is `=`. -/
theorem AttrType.beq_iff_eq : ∀ (a b : AttrType), (AttrType.beq a b = true ↔ a = b) := by
  have key : ∀ n, ∀ (a : AttrType), sizeOf a ≤ n → ∀ b, (AttrType.beq a b = true ↔ a = b) := by
    intro n
    induction n with
    | zero => intro a ha; exfalso; cases a <;> simp at ha
    | succ n ih =>
        intro a ha b
        cases a with
        | bool => cases b <;> simp [AttrType.beq]
        | number => cases b <;> simp [AttrType.beq]
        | string => cases b <;> simp [AttrType.beq]
        | dynamic => cases b <;> simp [AttrType.beq]
        | list a' =>
            have h1 : sizeOf a' ≤ n := by simp at ha; omega
            cases b <;> simp [AttrType.beq, ih a' h1]
        | map a' =>
            have h1 : sizeOf a' ≤ n := by simp at ha; omega
            cases b <;> simp [AttrType.beq, ih a' h1]
        | tuple as =>
            have h1 : ∀ x ∈ as, ∀ b', (AttrType.beq x b' = true ↔ x = b') := by
              intro x hx
              have hs := List.sizeOf_lt_of_mem hx
              exact ih x (by simp at ha; omega)
            cases b <;> simp [AttrType.beq, AttrType.beqList_iff as h1]
        | object fs =>
            have h1 : ∀ p ∈ fs, ∀ b', (AttrType.beq p.2 b' = true ↔ p.2 = b') := by
              intro p hp
              have hs := List.sizeOf_lt_of_mem hp
              obtain ⟨k, t⟩ := p
              have ht : sizeOf t < sizeOf ((k, t) : String × AttrType) := by
                simp
              exact ih t (by simp at ha hs ht ⊢; omega)
            cases b <;> simp [AttrType.beq, AttrType.beqFields_iff fs h1]
  exact fun a => key (sizeOf a) a le_rfl

theorem AttrType.beq_refl (a : AttrType) : AttrType.beq a a = true :=
  (AttrType.beq_iff_eq a a).2 rfl

/-- `attr.Value.Type()`: the descriptor a value reports.  The Go `nil`
interface has no type (calling `.Type` on it would panic); the model returns
`none`, which the framework-constructor models treat as a type mismatch. -/
def typeOfA : AttrValue → Option AttrType
  | .goNil => none
  | .nullV t => some t
  | .unknownV t => some t
  | .boolV _ => some .bool
  | .numberV _ => some .number
  | .stringV _ => some .string
  | .listV e _ => some (.list e)
  | .tupleV ts _ => some (.tuple ts)
  | .objectV fs _ => some (.object fs)
  | .mapV e _ => some (.map e)

/-- Whether an `attr.Value` reports exactly the given type: the framework's
`expected.Equal(element.Type(ctx))` validation check.  False for the Go
`nil` value, on which the framework would panic. -/
def hasType (v : AttrValue) (t : AttrType) : Bool :=
  match typeOfA v with
  | some t' => AttrType.beq t' t
  | none => false

/-- Model of `types.ListValue` (`basetypes.NewListValue`): validates that
every element reports the element type; on any mismatch returns the unknown
list plus one error diagnostic per mismatched element, otherwise the known
list with no diagnostics. -/
def newListValue (elemType : AttrType) (elems : List AttrValue) : AttrValue × List Diag :=
  let bad := elems.filter (fun v => !hasType v elemType)
  if bad.isEmpty then (.listV elemType elems, [])
  else (.unknownV (.list elemType), bad.map (fun _ => ⟨"Invalid List Element Type", ""⟩))

/-- Model of `types.TupleValue` (`basetypes.NewTupleValue`): validates the
element count against the type count and each element's reported type. -/
def newTupleValue (elemTypes : List AttrType) (elems : List AttrValue) : AttrValue × List Diag :=
  if elems.length ≠ elemTypes.length then
    (.unknownV (.tuple elemTypes), [⟨"Invalid Tuple Elements Count", ""⟩])
  else
    let bad := (elems.zip elemTypes).filter (fun p => !hasType p.1 p.2)
    if bad.isEmpty then (.tupleV elemTypes elems, [])
    else (.unknownV (.tuple elemTypes), bad.map (fun _ => ⟨"Invalid Tuple Element Type", ""⟩))

/-- Model of `types.ObjectValue` (`basetypes.NewObjectValue`): validates that
the attribute value keys are exactly the attribute type keys and that every
value reports its declared type; on any failure returns the unknown object
plus error diagnostics. -/
def newObjectValue (attrTypes : List (String × AttrType))
    (attrs : List (String × AttrValue)) : AttrValue × List Diag :=
  let missing := attrTypes.filter (fun p => (alookup p.1 attrs).isNone)
  let extra := attrs.filter (fun p => (alookup p.1 attrTypes).isNone)
  let wrong := attrTypes.filter (fun p =>
    match alookup p.1 attrs with
    | some v => !hasType v p.2
    | none => false)
  if missing.isEmpty && extra.isEmpty && wrong.isEmpty then (.objectV attrTypes attrs, [])
  else (.unknownV (.object attrTypes),
    missing.map (fun _ => ⟨"Missing Object Attribute Value", ""⟩) ++
      extra.map (fun _ => ⟨"Extra Object Attribute Value", ""⟩) ++
      wrong.map (fun _ => ⟨"Invalid Object Attribute Type", ""⟩))

/-- Model of `types.MapValue` (`basetypes.NewMapValue`): validates that every
element reports the element type. -/
def newMapValue (elemType : AttrType) (elems : List (String × AttrValue)) :
    AttrValue × List Diag :=
  let bad := elems.filter (fun p => !hasType p.2 elemType)
  if bad.isEmpty then (.mapV elemType elems, [])
  else (.unknownV (.map elemType), bad.map (fun _ => ⟨"Invalid Map Element Type", ""⟩))

/-- The value looked up for a key in a raw Go map: Go `m[key]` yields the
`nil` interface (JSON null) when the key is absent. -/
def rawLookup (k : String) (m : List (String × JSONValue)) : JSONValue :=
  (alookup k m).getD .jnull

theorem sizeOf_rawLookup (k : String) (m : List (String × JSONValue)) :
    sizeOf (rawLookup k m) ≤ sizeOf m := by
  induction m with
  | nil => simp [rawLookup, alookup]
  | cons p rest ih =>
      obtain ⟨k', v⟩ := p
      by_cases h : k = k'
      · simp [rawLookup, alookup, h]; omega
      · simp only [rawLookup, alookup, if_neg h] at ih ⊢
        have : (1 : Nat) ≤ sizeOf k' + sizeOf v + 1 := by omega
        simp; omega

mutual

/-- Shallow embedding of `convertToAttrValue` (workspace_data_source.go,
lines 502–622), translated branch by branch:
* Go `nil` raw (JSON null) → `types.StringNull()` with no diagnostics,
  whatever the target type;
* the three scalar targets wrap a matching raw kind, or add a
  "Conversion Error" diagnostic and return the typed null of the target;
* `ListType`: converts every element against the element type, appends the
  element diagnostics to a local collector, then returns
  `types.ListValue(...)` directly — which discards that local collector and
  returns only the constructor's own validation diagnostics (faithful to the
  Go code, where the accumulated `diags` are dropped on this return path);
  `TupleType` behaves likewise after slice and arity checks;
* `ObjectType`: converts exactly the declared fields (an absent raw key is
  looked up as Go `nil`, i.e. null), aborting with the whole-object typed
  null and the failing field's diagnostics on the first field whose
  conversion has an error;
* `MapType`: returns `types.MapValue(elemType, nil)` — the known empty map —
  discarding the local collector, when raw is not a map or some element
  conversion fails; otherwise `types.MapValue` of the converted entries;
* the `default:` branch (reached by `DynamicType` here) adds an
  "unsupported type" diagnostic and returns the Go `nil` value. -/
def convertToAttrValue (raw : JSONValue) (t : AttrType) : AttrValue × List Diag :=
  match raw, t with
  | .jnull, _ => (.nullV .string, [])
  | .jbool b, .bool => (.boolV b, [])
  | _, .bool => (.nullV .bool, [⟨"Conversion Error", "expected bool"⟩])
  | .jnum q, .number => (.numberV q, [])
  | _, .number => (.nullV .number, [⟨"Conversion Error", "expected number"⟩])
  | .jstr s, .string => (.stringV s, [])
  | _, .string => (.nullV .string, [⟨"Conversion Error", "expected string"⟩])
  | .jarr xs, .list elemType => newListValue elemType (convertListElems elemType xs)
  | _, .list elemType =>
      (.nullV (.list elemType), [⟨"Conversion Error", "expected slice for ListType"⟩])
  | .jarr xs, .tuple elemTypes =>
      if xs.length ≠ elemTypes.length then
        (.nullV (.tuple elemTypes), [⟨"Conversion Error", "tuple length mismatch"⟩])
      else newTupleValue elemTypes (convertZip xs elemTypes)
  | _, .tuple elemTypes =>
      (.nullV (.tuple elemTypes), [⟨"Conversion Error", "expected slice for TupleType"⟩])
  | .jobj m, .object attrTypes =>
      (match convertFields attrTypes m with
       | .error ds => (.nullV (.object attrTypes), ds)
       | .ok vals => newObjectValue attrTypes vals)
  | _, .object attrTypes =>
      (.nullV (.object attrTypes), [⟨"Conversion Error", "expected map for ObjectType"⟩])
  | .jobj m, .map elemType =>
      (match convertMapElems elemType m with
       | .error _ => newMapValue elemType []
       | .ok vals => newMapValue elemType vals)
  | _, .map elemType => newMapValue elemType []
  | _, .dynamic => (.goNil, [⟨"Conversion Error", "unsupported type"⟩])
termination_by sizeOf raw + 3 * sizeOf t
decreasing_by
  all_goals simp_wf
  all_goals simp_arith
  all_goals omega

/-- The element values the `ListType` branch accumulates (their diagnostics
are collected locally in Go and then discarded by the final return). -/
def convertListElems (elemType : AttrType) : List JSONValue → List AttrValue
  | [] => []
  | x :: xs => (convertToAttrValue x elemType).1 :: convertListElems elemType xs
termination_by xs => sizeOf xs + 3 * sizeOf elemType + 1
decreasing_by
  all_goals simp_wf
  all_goals simp_arith
  all_goals omega

/-- The element values the `TupleType` branch accumulates, element `i`
against `elemTypes[i]`. -/
def convertZip : List JSONValue → List AttrType → List AttrValue
  | x :: xs, ty :: tys => (convertToAttrValue x ty).1 :: convertZip xs tys
  | _, _ => []
termination_by xs tys => sizeOf xs + 3 * sizeOf tys + 1
decreasing_by
  all_goals simp_wf
  all_goals simp_arith
  all_goals omega

/-- The `ObjectType` field loop: converts each declared field against its
descriptor, returning either all field values or — on the first field whose
conversion has an error — that field's diagnostics. -/
def convertFields (attrTypes : List (String × AttrType))
    (m : List (String × JSONValue)) : Except (List Diag) (List (String × AttrValue)) :=
  match attrTypes with
  | [] => .ok []
  | (key, expectedType) :: rest =>
      let vd := convertToAttrValue (rawLookup key m) expectedType
      if vd.2.isEmpty then
        match convertFields rest m with
        | .ok vs => .ok ((key, vd.1) :: vs)
        | .error ds => .error ds
      else .error vd.2
termination_by sizeOf m + 3 * sizeOf attrTypes + 1
decreasing_by
  all_goals simp_wf
  all_goals try (have hlk := sizeOf_rawLookup key m; simp_arith at hlk ⊢; omega)
  all_goals simp_arith
  all_goals omega

/-- The `MapType` entry loop: converts every entry against the element
descriptor, failing (without keeping any diagnostics — the Go code drops
them) if some entry's conversion has an error. -/
def convertMapElems (elemType : AttrType) :
    List (String × JSONValue) → Except Unit (List (String × AttrValue))
  | [] => .ok []
  | (k, x) :: rest =>
      let vd := convertToAttrValue x elemType
      if vd.2.isEmpty then
        match convertMapElems elemType rest with
        | .ok vs => .ok ((k, vd.1) :: vs)
        | .error e => .error e
      else .error ()
termination_by m => sizeOf m + 3 * sizeOf elemType + 1
decreasing_by
  all_goals simp_wf
  all_goals simp_arith
  all_goals omega

end

/-- Insertion step of the key sort used to canonicalise inferred object
descriptors (Go's `ObjectType.AttrTypes` is an unordered map, and
`reflect.DeepEqual` on it is key-order-insensitive, so the embedding fixes a
canonical field order at inference time). -/
def insertField (p : String × AttrType) :
    List (String × AttrType) → List (String × AttrType)
  | [] => [p]
  | q :: qs => if p.1 ≤ q.1 then p :: q :: qs else q :: insertField p qs

/-- Key-insertion sort of an inferred field list (canonical order for the
unordered Go map `ObjectType.AttrTypes`). -/
def sortFields (l : List (String × AttrType)) : List (String × AttrType) :=
  l.foldr insertField []

theorem insertField_perm (p : String × AttrType) (l : List (String × AttrType)) :
    (insertField p l).Perm (p :: l) := by
  induction l with
  | nil => simp [insertField]
  | cons q qs ih =>
      by_cases h : p.1 ≤ q.1
      · simp [insertField, h]
      · simp only [insertField, if_neg h]
        exact (ih.cons q).trans (List.Perm.swap p q qs)

theorem sortFields_perm (l : List (String × AttrType)) : (sortFields l).Perm l := by
  induction l with
  | nil => simp [sortFields]
  | cons p qs ih =>
      simpa [sortFields] using (insertField_perm p (sortFields qs)).trans (ih.cons p)

mutual

/-- Shallow embedding of `inferAttrType` (workspace_data_source.go, lines
624–689):
* Go `nil` raw (JSON null) infers as `types.StringType` — the code's own
  comment: nil attribute values will be converted to `types.StringNull`;
* bool / any numeric kind / string infer as the matching scalar type;
* an empty slice infers as `ListType{ElemType: DynamicType}`;
* a non-empty slice infers every element (the first element error
  propagates); if every element descriptor is `reflect.DeepEqual` to the
  first, the result is `ListType` of the first descriptor, otherwise
  `TupleType` of the per-element descriptors.  (The Go code scans for a
  mismatch and then re-infers all elements for the tuple; inference is
  deterministic, so that is extensionally the single pass modelled here.)
* a map infers every field (errors propagate, wrapped with the key) and
  yields `ObjectType` whose keys are exactly the input keys;
* any other dynamic kind fails with an "unsupported type" error. -/
def inferAttrType : JSONValue → Except String AttrType
  | .jnull => .ok .string
  | .jbool _ => .ok .bool
  | .jnum _ => .ok .number
  | .jstr _ => .ok .string
  | .jarr xs =>
      match inferElems xs with
      | .error e => .error e
      | .ok [] => .ok (.list .dynamic)
      | .ok (t0 :: trest) =>
          if trest.all (fun ty => AttrType.beq ty t0) then .ok (.list t0)
          else .ok (.tuple (t0 :: trest))
  | .jobj m =>
      match inferFields m with
      | .error e => .error e
      | .ok fields => .ok (.object (sortFields fields))
  | .junsupported goType => .error ("unsupported type " ++ goType)

/-- Element-wise inference for a slice, propagating the first error. -/
def inferElems : List JSONValue → Except String (List AttrType)
  | [] => .ok []
  | x :: xs =>
      match inferAttrType x with
      | .error e => .error e
      | .ok t =>
          match inferElems xs with
          | .error e => .error e
          | .ok ts => .ok (t :: ts)

/-- Field-wise inference for a map, propagating the first error wrapped with
its key. -/
def inferFields : List (String × JSONValue) → Except String (List (String × AttrType))
  | [] => .ok []
  | (k, x) :: rest =>
      match inferAttrType x with
      | .error e => .error ("error inferring type for key " ++ k ++ ": " ++ e)
      | .ok t =>
          match inferFields rest with
          | .error e => .error e
          | .ok ts => .ok ((k, t) :: ts)

end

/-! ## The output projection driver (`OutputDataSource.Read`, lines 451–493) -/

/-- The four projection maps `OutputDataSource.Read` builds (lines 451–454):
full ("sensitive") types and values, redacted ("non-sensitive") types and
values.  A `none` type is the Go `nil` `attr.Type` stored when inference
failed and its error was discarded. -/
structure OutputsState where
  sensitiveTypes : List (String × Option AttrType)
  sensitiveValues : List (String × AttrValue)
  nonSensitiveTypes : List (String × Option AttrType)
  nonSensitiveValues : List (String × AttrValue)

/-- `attrType, _ := inferAttrType(...)`: the driver keeps only the first
result, which is the Go `nil` `attr.Type` (`none` here) when inference
failed. -/
def inferTop (raw : JSONValue) : Option AttrType :=
  match inferAttrType raw with
  | .ok t => some t
  | .error _ => none

/-- `convertToAttrValue` as the driver calls it, with a possibly-nil target
type: a Go `nil` `attr.Type` matches none of the scalar equality checks and
none of the type-switch cases, so a non-null raw falls to the `default:`
branch (diagnostic plus Go `nil` value), while a null raw still returns
`types.StringNull()` from the first check. -/
def convertTop (raw : JSONValue) (t : Option AttrType) : AttrValue × List Diag :=
  match t with
  | some ty => convertToAttrValue raw ty
  | none =>
      match raw with
      | .jnull => (.nullV .string, [])
      | _ => (.goNil, [⟨"Conversion Error", "unsupported type <nil>"⟩])

/-- Go `myOutput["sensitive"] == false`: interface equality against the
untyped boolean `false` is true exactly when the field is present and holds
the JSON boolean `false`; an absent field yields the `nil` interface, which
is not equal to `false`. -/
def isNonSensitive (fields : List (String × JSONValue)) : Bool :=
  match alookup "sensitive" fields with
  | some (.jbool false) => true
  | _ => false

/-- The per-output body of the `for x := range outputs` loop (lines
457–473): infer the type of the output's `value` (discarding the inference
error), convert the value against it (discarding the conversion
diagnostics), insert type and value into the full projection, and also into
the redacted projection exactly when the raw `sensitive` field compares
equal to the Go boolean `false`. -/
def processOutput (name : String) (fields : List (String × JSONValue))
    (st : OutputsState) : OutputsState :=
  let rawValue := rawLookup "value" fields
  let attrType := inferTop rawValue
  let attrValue := (convertTop rawValue attrType).1
  ⟨(name, attrType) :: st.sensitiveTypes,
   (name, attrValue) :: st.sensitiveValues,
   if isNonSensitive fields then (name, attrType) :: st.nonSensitiveTypes
   else st.nonSensitiveTypes,
   if isNonSensitive fields then (name, attrValue) :: st.nonSensitiveValues
   else st.nonSensitiveValues⟩

/-- The `for x := range outputs` loop of `OutputDataSource.Read`: every
output must itself be a string-keyed map (otherwise the whole read returns
immediately with no state set, modelled as `none`); each map entry is
processed by `processOutput`. -/
def readOutputsLoop : List (String × JSONValue) → Option OutputsState
  | [] => some ⟨[], [], [], []⟩
  | (name, out) :: rest =>
      match out with
      | .jobj fields =>
          match readOutputsLoop rest with
          | none => none
          | some st => some (processOutput name fields st)
      | _ => none

/-! ## Well-formed documents and shape mirroring -/

/-- Duplicate-freedom of an association list's keys, as a boolean. -/
def nodupKeys {α : Type} : List (String × α) → Bool
  | [] => true
  | (k, _) :: rest => !(rest.any (fun p => p.1 == k)) && nodupKeys rest

mutual

/-- A well-formed JSON-decoded document: built only from the supported
dynamic kinds (no `junsupported` anywhere) and, since Go maps cannot carry
duplicate keys, with duplicate-free keys in every object. -/
def wfJSON : JSONValue → Bool
  | .jnull => true
  | .jbool _ => true
  | .jnum _ => true
  | .jstr _ => true
  | .jarr xs => wfJSONList xs
  | .jobj m => nodupKeys m && wfJSONFields m
  | .junsupported _ => false

def wfJSONList : List JSONValue → Bool
  | [] => true
  | x :: xs => wfJSON x && wfJSONList xs

def wfJSONFields : List (String × JSONValue) → Bool
  | [] => true
  | (_, x) :: rest => wfJSON x && wfJSONFields rest

end

mutual

/-- Shape-mirroring of a raw JSON value by a converted `attr.Value`: the
relation of the spec's round-trip property.  Matching kind at every
recursion level (a JSON null is mirrored by any typed null), equal scalar
payloads, equal sequence lengths (a raw array may be mirrored by a List or a
Tuple value, both sequences), and equal object key sets with mirroring per
key. -/
def mirrors : JSONValue → AttrValue → Bool
  | .jnull, .nullV _ => true
  | .jbool b, .boolV b' => b == b'
  | .jnum q, .numberV q' => q == q'
  | .jstr s, .stringV s' => s == s'
  | .jarr xs, .listV _ vs => mirrorsList xs vs
  | .jarr xs, .tupleV _ vs => mirrorsList xs vs
  | .jobj m, .objectV _ attrs =>
      attrs.all (fun p => (alookup p.1 m).isSome) && mirrorsFields m attrs
  | _, _ => false

def mirrorsList : List JSONValue → List AttrValue → Bool
  | [], [] => true
  | x :: xs, v :: vs => mirrors x v && mirrorsList xs vs
  | _, _ => false

def mirrorsFields : List (String × JSONValue) → List (String × AttrValue) → Bool
  | [], _ => true
  | (k, x) :: rest, attrs =>
      (match alookup k attrs with
       | some v => mirrors x v
       | none => false) && mirrorsFields rest attrs

end

/-- A raw output record as the remote API serves it: a map with a `value`
field holding the raw JSON value and a `sensitive` field holding a JSON
boolean. -/
def mkOutput (v : JSONValue) (s : Bool) : JSONValue :=
  .jobj [("value", v), ("sensitive", .jbool s)]

/-- A conversion of `x` against `ty` that succeeds cleanly: no diagnostics,
the result reports type `ty`, and the result mirrors `x`'s shape. -/
def convOk (x : JSONValue) (ty : AttrType) : Prop :=
  (convertToAttrValue x ty).2 = [] ∧ hasType (convertToAttrValue x ty).1 ty = true ∧
    mirrors x (convertToAttrValue x ty).1 = true

/-! ## Supporting lemmas -/

theorem alookup_isSome_iff {α : Type} (k : String) (l : List (String × α)) :
    (alookup k l).isSome ↔ k ∈ l.map Prod.fst := by
  induction l with
  | nil => simp [alookup]
  | cons p rest ih =>
      obtain ⟨k', v⟩ := p
      by_cases h : k = k'
      · simp [alookup, h]
      · simp [alookup, h, ih]

theorem alookup_mem {α : Type} {k : String} {v : α} {l : List (String × α)}
    (h : alookup k l = some v) : (k, v) ∈ l := by
  induction l with
  | nil => simp [alookup] at h
  | cons p rest ih =>
      obtain ⟨k', v'⟩ := p
      by_cases hk : k = k'
      · simp [alookup, hk] at h
        simp [hk, h]
      · simp only [alookup, if_neg hk] at h
        exact List.mem_cons_of_mem _ (ih h)

theorem nodupKeys_iff {α : Type} (l : List (String × α)) :
    nodupKeys l = true ↔ (l.map Prod.fst).Nodup := by
  induction l with
  | nil => simp [nodupKeys]
  | cons p rest ih =>
      obtain ⟨k, v⟩ := p
      simp [nodupKeys, ih, List.any_eq_true]
      aesop

theorem alookup_eq_of_mem_nodup {α : Type} {k : String} {v : α} {l : List (String × α)}
    (hnd : (l.map Prod.fst).Nodup) (hmem : (k, v) ∈ l) : alookup k l = some v := by
  induction l with
  | nil => simp at hmem
  | cons p rest ih =>
      obtain ⟨k', v'⟩ := p
      simp only [List.map_cons, List.nodup_cons] at hnd
      rcases List.mem_cons.mp hmem with heq | hmem'
      · cases heq
        simp [alookup]
      · have hne : k ≠ k' := by
          rintro rfl
          exact hnd.1 (List.mem_map.mpr ⟨(k, v), hmem', rfl⟩)
        simp [alookup, hne, ih hnd.2 hmem']

/-! ## Claim theorems -/

/-- C5 (counterexample): the claim says inferring a null raw value yields a
dedicated Null leaf descriptor and not any other scalar kind.  The
descriptor space this code uses has no Null kind at all, and inference of
the null raw value yields the String scalar descriptor — a scalar kind
other than a null kind. -/
theorem inferNull_yields_string_cex :
    inferAttrType JSONValue.jnull = Except.ok AttrType.string ∧
      AttrType.string ≠ AttrType.bool ∧ AttrType.string ≠ AttrType.number := by
  refine ⟨by simp [inferAttrType], by simp, by simp⟩

/-- C5 (amended): inferring the type of a null raw value yields the String
scalar descriptor (`types.StringType`) — the code deliberately types nulls
as strings because they convert to `types.StringNull()`; the descriptor sum
type has no dedicated Null kind. -/
theorem inferNull_yields_string : inferAttrType JSONValue.jnull = Except.ok AttrType.string := by
  simp [inferAttrType]

/-- C4 (counterexample): the claim says converting a null raw value against
a target descriptor `t` produces a null placeholder whose type is `t`.
Against the Bool target the code returns `types.StringNull()` — a null
placeholder typed String, not Bool. -/
theorem convertNull_stringTyped_cex :
    convertToAttrValue JSONValue.jnull AttrType.bool = (.nullV .string, []) ∧
      AttrType.string ≠ AttrType.bool := by
  refine ⟨by simp [convertToAttrValue], by simp⟩

/-- C4 (amended): converting a null raw value against every target
descriptor succeeds with zero diagnostics, producing the String-typed null
placeholder `types.StringNull()` regardless of the target type (the
`raw == nil` check precedes every target-type test). -/
theorem convertNull_total (t : AttrType) :
    convertToAttrValue JSONValue.jnull t = (.nullV .string, []) := by
  cases t <;> simp [convertToAttrValue]

/-- C9 (counterexample): the claim says a target kind with no conversion
rule yields an unsupported-conversion diagnostic together with a null
placeholder — some structurally valid value.  The `default:` branch in fact
returns the Go `nil` interface, which is no `attr.Value` at all: it reports
no type (the framework would panic on it). -/
theorem convertDynamic_goNil_cex :
    convertToAttrValue (JSONValue.jbool true) AttrType.dynamic =
        (.goNil, [⟨"Conversion Error", "unsupported type"⟩]) ∧
      typeOfA AttrValue.goNil = none := by
  refine ⟨by simp [convertToAttrValue], rfl⟩

/-- C9 (amended): for the Dynamic target (which reaches the `default:`
branch of the type switch) and any non-null raw value, conversion returns
an unsupported-type diagnostic together with the Go `nil` interface — no
value at all — rather than a null placeholder. -/
theorem convertDynamic_goNil (raw : JSONValue) (h : raw ≠ JSONValue.jnull) :
    convertToAttrValue raw AttrType.dynamic =
      (.goNil, [⟨"Conversion Error", "unsupported type"⟩]) := by
  cases raw <;> simp_all [convertToAttrValue]

theorem convertDynamic_goNil_witness :
    (JSONValue.jstr "v" ≠ JSONValue.jnull) ∧
      convertToAttrValue (JSONValue.jstr "v") AttrType.dynamic =
        (.goNil, [⟨"Conversion Error", "unsupported type"⟩]) :=
  ⟨by simp, convertDynamic_goNil (JSONValue.jstr "v") (by simp)⟩

/-- C3: an empty ordered sequence infers as List(Dynamic); a non-empty
sequence whose elements all infer to structurally equal descriptors infers
as List of the first element's descriptor; a non-empty sequence with any
structurally unequal element descriptor infers as the Tuple of the
independently inferred per-element descriptors. -/
theorem inferArray_spec :
    inferAttrType (JSONValue.jarr []) = Except.ok (AttrType.list AttrType.dynamic)
    ∧ (∀ x xs t0 ts, inferElems (x :: xs) = Except.ok (t0 :: ts) →
        (∀ ty ∈ ts, ty = t0) →
        inferAttrType (JSONValue.jarr (x :: xs)) = Except.ok (AttrType.list t0))
    ∧ (∀ x xs t0 ts, inferElems (x :: xs) = Except.ok (t0 :: ts) →
        ¬(∀ ty ∈ ts, ty = t0) →
        inferAttrType (JSONValue.jarr (x :: xs)) = Except.ok (AttrType.tuple (t0 :: ts))) := by
  refine ⟨by simp [inferAttrType, inferElems], ?_, ?_⟩
  · intro x xs t0 ts hinf hall
    have hb : ts.all (fun ty => AttrType.beq ty t0) = true := by
      simp only [List.all_eq_true]
      intro ty hty
      exact (AttrType.beq_iff_eq ty t0).2 (hall ty hty)
    simp [inferAttrType, hinf, hb]
  · intro x xs t0 ts hinf hall
    have hb : ts.all (fun ty => AttrType.beq ty t0) = false := by
      push_neg at hall
      obtain ⟨ty, hty, hne⟩ := hall
      rw [List.all_eq_false]
      refine ⟨ty, hty, ?_⟩
      simp only [Bool.not_eq_true]
      rw [Bool.eq_false_iff]
      intro hbeq
      exact hne ((AttrType.beq_iff_eq ty t0).1 hbeq)
    simp [inferAttrType, hinf, hb]

theorem inferArray_spec_witness :
    (inferElems [JSONValue.jnum 1, JSONValue.jnum 2, JSONValue.jnum 3] =
        Except.ok [AttrType.number, AttrType.number, AttrType.number])
    ∧ inferAttrType (JSONValue.jarr [JSONValue.jnum 1, JSONValue.jnum 2, JSONValue.jnum 3]) =
        Except.ok (AttrType.list AttrType.number)
    ∧ inferAttrType (JSONValue.jarr [JSONValue.jnum 1, JSONValue.jstr "a", JSONValue.jbool true]) =
        Except.ok (AttrType.tuple [AttrType.number, AttrType.string, AttrType.bool]) := by
  refine ⟨by simp [inferElems, inferAttrType], ?_, ?_⟩
  · exact inferArray_spec.2.1 (JSONValue.jnum 1) [JSONValue.jnum 2, JSONValue.jnum 3]
      AttrType.number [AttrType.number, AttrType.number]
      (by simp [inferElems, inferAttrType]) (by simp)
  · exact inferArray_spec.2.2 (JSONValue.jnum 1) [JSONValue.jstr "a", JSONValue.jbool true]
      AttrType.number [AttrType.string, AttrType.bool]
      (by simp [inferElems, inferAttrType]) (by simp)

/-- C7 (code evaluation at the failing input): converting the element `"a"`
against Number fails with a "Conversion Error" diagnostic, yet converting
the list `["a"]` against List(Number) returns the converted list of full
length with NO diagnostics at all: the element diagnostics accumulated in
the local collector are discarded when the list branch returns
`types.ListValue(...)`'s own (empty) validation diagnostics, contradicting
the claim that every failing element's diagnostics are present in the
diagnostics returned to the caller. -/
theorem listElemDiags_dropped :
    (convertToAttrValue (JSONValue.jstr "a") AttrType.number).2 =
        [⟨"Conversion Error", "expected number"⟩]
    ∧ convertToAttrValue (JSONValue.jarr [JSONValue.jstr "a"]) (AttrType.list AttrType.number) =
        (.listV .number [.nullV .number], []) := by
  constructor
  · simp [convertToAttrValue]
  · simp [convertToAttrValue, convertListElems, newListValue, hasType, typeOfA,
      AttrType.beq, List.filter]

theorem isNonSensitive_iff (fields : List (String × JSONValue)) :
    isNonSensitive fields = true ↔
      alookup "sensitive" fields = some (JSONValue.jbool false) := by
  cases h : alookup "sensitive" fields with
  | none => simp [isNonSensitive, h]
  | some j =>
      cases j with
      | jbool b => cases b <;> simp [isNonSensitive, h]
      | jnull => simp [isNonSensitive, h]
      | jnum q => simp [isNonSensitive, h]
      | jstr s => simp [isNonSensitive, h]
      | jarr xs => simp [isNonSensitive, h]
      | jobj m => simp [isNonSensitive, h]
      | junsupported g => simp [isNonSensitive, h]

/-- C2: for a mapping of output names to (rawValue, sensitive) pairs
processed by the output read loop, the full projection contains an entry
for every output; the redacted projection contains exactly the outputs
whose sensitive flag is false (and no name outside the mapping); and every
redacted entry carries the same inferred type and converted value as its
full-projection entry. -/
theorem read_projections (outs : List (String × JSONValue × Bool)) (st : OutputsState)
    (hnd : (outs.map Prod.fst).Nodup)
    (hst : readOutputsLoop (outs.map (fun p => (p.1, mkOutput p.2.1 p.2.2))) = some st) :
    (∀ p ∈ outs, (alookup p.1 st.sensitiveValues).isSome ∧
        (alookup p.1 st.sensitiveTypes).isSome)
    ∧ (∀ p ∈ outs, ((alookup p.1 st.nonSensitiveValues).isSome ↔ p.2.2 = false))
    ∧ (∀ name, (alookup name st.nonSensitiveValues).isSome → name ∈ outs.map Prod.fst)
    ∧ (∀ p ∈ outs, p.2.2 = false →
        alookup p.1 st.nonSensitiveValues = alookup p.1 st.sensitiveValues
        ∧ alookup p.1 st.nonSensitiveTypes = alookup p.1 st.sensitiveTypes) := by
  induction outs generalizing st with
  | nil =>
      simp [readOutputsLoop] at hst
      subst hst
      exact ⟨by simp, by simp, by simp [alookup], by simp⟩
  | cons p rest ih =>
      obtain ⟨n, v, s⟩ := p
      simp only [List.map_cons] at hst
      rw [show mkOutput v s = JSONValue.jobj [("value", v), ("sensitive", JSONValue.jbool s)]
        from rfl] at hst
      simp only [readOutputsLoop] at hst
      cases hloop : readOutputsLoop (rest.map fun p => (p.1, mkOutput p.2.1 p.2.2)) with
      | none => rw [hloop] at hst; simp at hst
      | some st' =>
          rw [hloop] at hst
          simp only [Option.some.injEq] at hst
          subst hst
          simp only [List.map_cons, List.nodup_cons] at hnd
          obtain ⟨hn, hndr⟩ := hnd
          obtain ⟨ih1, ih2, ih3, ih4⟩ := ih st' hndr hloop
          refine ⟨?_, ?_, ?_, ?_⟩
          · intro q hq
            rcases List.mem_cons.mp hq with rfl | hq'
            · simp [processOutput, alookup]
            · have hne : q.1 ≠ n := by
                rintro h
                exact hn (h ▸ List.mem_map.mpr ⟨q, hq', rfl⟩)
              simpa [processOutput, alookup, hne] using ih1 q hq'
          · intro q hq
            rcases List.mem_cons.mp hq with rfl | hq'
            · cases s with
              | false => simp [processOutput, isNonSensitive, alookup]
              | true =>
                  simp only [processOutput, isNonSensitive, alookup]
                  simp only [show ("sensitive" = "value") = False by simp, if_false,
                    if_pos rfl]
                  constructor
                  · intro hsome
                    exact absurd (ih3 n hsome) hn
                  · simp
            · have hne : q.1 ≠ n := by
                rintro h
                exact hn (h ▸ List.mem_map.mpr ⟨q, hq', rfl⟩)
              cases s <;> simpa [processOutput, isNonSensitive, alookup, hne] using ih2 q hq'
          · intro name hsome
            by_cases heq : name = n
            · simp [heq]
            · cases s with
              | false =>
                  simp only [processOutput, isNonSensitive, alookup] at hsome
                  simp only [show ("sensitive" = "value") = False by simp, if_false,
                    if_pos rfl, if_neg heq] at hsome
                  exact List.mem_cons_of_mem _ (ih3 name hsome)
              | true =>
                  simp only [processOutput, isNonSensitive, alookup] at hsome
                  simp only [show ("sensitive" = "value") = False by simp, if_false,
                    if_pos rfl] at hsome
                  exact List.mem_cons_of_mem _ (ih3 name hsome)
          · intro q hq hflag
            rcases List.mem_cons.mp hq with rfl | hq'
            · simp only at hflag
              subst hflag
              simp [processOutput, isNonSensitive, alookup]
            · have hne : q.1 ≠ n := by
                rintro h
                exact hn (h ▸ List.mem_map.mpr ⟨q, hq', rfl⟩)
              have := ih4 q hq' hflag
              cases s <;>
                simpa [processOutput, isNonSensitive, alookup, hne] using this

theorem read_projections_witness :
    ((alookup "y" [("x", AttrValue.numberV 5), ("y", AttrValue.stringV "secret")]).isSome = true)
    ∧ ((alookup "y" ([("x", AttrValue.numberV 5)] : List (String × AttrValue))).isSome ↔
        (true = false))
    ∧ (alookup "x" ([("x", AttrValue.numberV 5)] : List (String × AttrValue)) =
        alookup "x" [("x", AttrValue.numberV 5), ("y", AttrValue.stringV "secret")]) := by
  have h := read_projections
      [("x", (JSONValue.jnum 5, false)), ("y", (JSONValue.jstr "secret", true))]
      ⟨[("x", some AttrType.number), ("y", some AttrType.string)],
       [("x", AttrValue.numberV 5), ("y", AttrValue.stringV "secret")],
       [("x", some AttrType.number)], [("x", AttrValue.numberV 5)]⟩
      (by decide)
      (by simp [mkOutput, readOutputsLoop, processOutput, inferTop, inferAttrType,
        convertTop, convertToAttrValue, rawLookup, alookup, isNonSensitive])
  exact ⟨(h.1 ("y", (JSONValue.jstr "secret", true)) (by simp)).1,
         h.2.1 ("y", (JSONValue.jstr "secret", true)) (by simp),
         (h.2.2.2 ("x", (JSONValue.jnum 5, false)) (by simp) rfl).1⟩

/-- C10: an output is added to the redacted projection exactly when its raw
`sensitive` field is present and holds the JSON boolean false (Go interface
equality `myOutput["sensitive"] == false`); when the field is absent, null,
or of any non-boolean kind the output is excluded from the redacted
projection (and the redacted projection holds no name outside the
processed outputs), while the output still appears in the full
projection. -/
theorem read_sensitiveExactlyFalse (outs : List (String × List (String × JSONValue)))
    (st : OutputsState) (hnd : (outs.map Prod.fst).Nodup)
    (hst : readOutputsLoop (outs.map (fun p => (p.1, JSONValue.jobj p.2))) = some st) :
    (∀ name, (alookup name st.nonSensitiveValues).isSome → name ∈ outs.map Prod.fst)
    ∧ ∀ p ∈ outs, (alookup p.1 st.sensitiveValues).isSome = true ∧
        ((alookup p.1 st.nonSensitiveValues).isSome ↔
          alookup "sensitive" p.2 = some (JSONValue.jbool false)) := by
  induction outs generalizing st with
  | nil =>
      simp [readOutputsLoop] at hst
      subst hst
      exact ⟨by simp [alookup], by simp⟩
  | cons p rest ih =>
      obtain ⟨n, fields⟩ := p
      simp only [List.map_cons, readOutputsLoop] at hst
      cases hloop : readOutputsLoop (rest.map fun p => (p.1, JSONValue.jobj p.2)) with
      | none => rw [hloop] at hst; simp at hst
      | some st' =>
          rw [hloop] at hst
          simp only [Option.some.injEq] at hst
          subst hst
          simp only [List.map_cons, List.nodup_cons] at hnd
          obtain ⟨hn, hndr⟩ := hnd
          obtain ⟨ihsub, ihmem⟩ := ih st' hndr hloop
          constructor
          · intro name hsome
            by_cases heq : name = n
            · simp [heq]
            · cases hs : isNonSensitive fields with
              | true =>
                  simp only [processOutput, hs, if_pos rfl, alookup, if_neg heq] at hsome
                  exact List.mem_cons_of_mem _ (ihsub name hsome)
              | false =>
                  simp only [processOutput, hs, if_false] at hsome
                  exact List.mem_cons_of_mem _ (ihsub name hsome)
          · intro q hq
            rcases List.mem_cons.mp hq with rfl | hq'
            · refine ⟨by simp [processOutput, alookup], ?_⟩
              rw [← isNonSensitive_iff]
              cases hs : isNonSensitive fields with
              | true => simp [processOutput, hs, alookup]
              | false =>
                  simp only [processOutput]
                  rw [if_neg (by simp [hs])]
                  constructor
                  · intro hsome
                    exact absurd (ihsub n hsome) hn
                  · intro h
                    exact absurd h (by simp)
            · have hne : q.1 ≠ n := by
                rintro h
                exact hn (h ▸ List.mem_map.mpr ⟨q, hq', rfl⟩)
              have := ihmem q hq'
              cases hs : isNonSensitive fields <;>
                simpa [processOutput, hs, alookup, hne] using this

theorem read_sensitiveExactlyFalse_witness :
    ((alookup "c" ([("c", AttrValue.numberV 3)] : List (String × AttrValue))).isSome ↔
        alookup "sensitive" [("value", JSONValue.jnum 3),
          ("sensitive", JSONValue.jbool false)] = some (JSONValue.jbool false))
    ∧ ((alookup "a" ([("c", AttrValue.numberV 3)] : List (String × AttrValue))).isSome ↔
        alookup "sensitive" ([("value", JSONValue.jnum 1)] : List (String × JSONValue)) =
          some (JSONValue.jbool false))
    ∧ ((alookup "b" ([("c", AttrValue.numberV 3)] : List (String × AttrValue))).isSome ↔
        alookup "sensitive" [("value", JSONValue.jnum 2), ("sensitive", JSONValue.jnull)] =
          some (JSONValue.jbool false))
    ∧ (alookup "a" [("a", AttrValue.numberV 1), ("b", AttrValue.numberV 2),
        ("c", AttrValue.numberV 3)]).isSome = true := by
  have h := read_sensitiveExactlyFalse
      [("a", [("value", JSONValue.jnum 1)]),
       ("b", [("value", JSONValue.jnum 2), ("sensitive", JSONValue.jnull)]),
       ("c", [("value", JSONValue.jnum 3), ("sensitive", JSONValue.jbool false)])]
      ⟨[("a", some AttrType.number), ("b", some AttrType.number), ("c", some AttrType.number)],
       [("a", AttrValue.numberV 1), ("b", AttrValue.numberV 2), ("c", AttrValue.numberV 3)],
       [("c", some AttrType.number)], [("c", AttrValue.numberV 3)]⟩
      (by decide)
      (by simp [readOutputsLoop, processOutput, inferTop, inferAttrType,
        convertTop, convertToAttrValue, rawLookup, alookup, isNonSensitive])
  exact ⟨(h.2 ("c", [("value", JSONValue.jnum 3), ("sensitive", JSONValue.jbool false)])
            (by simp)).2,
         (h.2 ("a", [("value", JSONValue.jnum 1)]) (by simp)).2,
         (h.2 ("b", [("value", JSONValue.jnum 2), ("sensitive", JSONValue.jnull)])
            (by simp)).2,
         (h.2 ("a", [("value", JSONValue.jnum 1)]) (by simp)).1⟩

/-- C8 (counterexample): an output whose value fails inference is NOT
skipped: the loop discards the inference error (`attrType, _ := ...`) and
the conversion diagnostics (`attrValue, _ := ...`), records no diagnostic,
and inserts the entry — with a Go-nil type and Go-nil value — into the full
projection and (its sensitive flag being false) the redacted projection,
contradicting the claim that such an entry appears in neither. -/
theorem inferFail_notSkipped_cex :
    readOutputsLoop [("a", JSONValue.jobj
        [("value", JSONValue.junsupported "chan int"),
         ("sensitive", JSONValue.jbool false)])] =
      some ⟨[("a", none)], [("a", .goNil)], [("a", none)], [("a", .goNil)]⟩ := by
  simp [readOutputsLoop, processOutput, inferTop, inferAttrType, convertTop,
    rawLookup, alookup, isNonSensitive]

/-- C8 (amended): when inference of an output's value fails, the loop
records no diagnostic — both the inference error and the subsequent
conversion diagnostics are discarded — and the entry is not skipped: it is
inserted into the full projection with a Go-nil type (`none`) and Go-nil
value, and into the redacted projection as well exactly when its raw
`sensitive` field equals false; the remaining outputs are still processed
(the previously accumulated state is preserved unchanged). -/
theorem inferFail_notSkipped (name : String) (fields : List (String × JSONValue))
    (rest : List (String × JSONValue)) (st : OutputsState)
    (hfail : inferTop (rawLookup "value" fields) = none)
    (hrest : readOutputsLoop rest = some st) :
    readOutputsLoop ((name, JSONValue.jobj fields) :: rest) =
        some (processOutput name fields st)
    ∧ (processOutput name fields st).sensitiveTypes = (name, none) :: st.sensitiveTypes
    ∧ (processOutput name fields st).sensitiveValues =
        (name, AttrValue.goNil) :: st.sensitiveValues
    ∧ (processOutput name fields st).nonSensitiveTypes =
        (if isNonSensitive fields then (name, none) :: st.nonSensitiveTypes
         else st.nonSensitiveTypes)
    ∧ (processOutput name fields st).nonSensitiveValues =
        (if isNonSensitive fields then (name, AttrValue.goNil) :: st.nonSensitiveValues
         else st.nonSensitiveValues) := by
  have hraw : rawLookup "value" fields ≠ JSONValue.jnull := by
    intro h
    rw [h] at hfail
    simp [inferTop, inferAttrType] at hfail
  have hconv : (convertTop (rawLookup "value" fields) none).1 = AttrValue.goNil := by
    cases hv : rawLookup "value" fields <;> simp_all [convertTop]
  refine ⟨by simp [readOutputsLoop, hrest], ?_, ?_, ?_, ?_⟩ <;>
    simp [processOutput, hfail, hconv]

theorem inferFail_notSkipped_witness :
    (inferTop (rawLookup "value" [("value", JSONValue.junsupported "chan int")]) = none)
    ∧ readOutputsLoop [("a", JSONValue.jobj [("value", JSONValue.junsupported "chan int")]),
        ("b", JSONValue.jobj [("value", JSONValue.jnum 1)])] =
        some (processOutput "a" [("value", JSONValue.junsupported "chan int")]
          ⟨[("b", some AttrType.number)], [("b", AttrValue.numberV 1)], [], []⟩)
    ∧ (processOutput "a" [("value", JSONValue.junsupported "chan int")]
          ⟨[("b", some AttrType.number)], [("b", AttrValue.numberV 1)], [], []⟩).sensitiveValues =
        [("a", AttrValue.goNil), ("b", AttrValue.numberV 1)] := by
  have h := inferFail_notSkipped "a" [("value", JSONValue.junsupported "chan int")]
      [("b", JSONValue.jobj [("value", JSONValue.jnum 1)])]
      ⟨[("b", some AttrType.number)], [("b", AttrValue.numberV 1)], [], []⟩
      (by simp [inferTop, inferAttrType, rawLookup, alookup])
      (by simp [readOutputsLoop, processOutput, inferTop, inferAttrType, convertTop,
        convertToAttrValue, rawLookup, alookup, isNonSensitive])
  exact ⟨by simp [inferTop, inferAttrType, rawLookup, alookup], h.1, by rw [h.2.2.1]⟩

theorem convertFields_congr (fs : List (String × AttrType))
    (m m' : List (String × JSONValue))
    (h : ∀ p ∈ fs, rawLookup p.1 m = rawLookup p.1 m') :
    convertFields fs m = convertFields fs m' := by
  induction fs with
  | nil => simp [convertFields]
  | cons p rest ih =>
      obtain ⟨key, ty⟩ := p
      have hk := h (key, ty) (by simp)
      have hrest := ih fun q hq => h q (List.mem_cons_of_mem _ hq)
      simp only [convertFields, hk, hrest]

theorem convertFields_error (fs : List (String × AttrType))
    (m : List (String × JSONValue))
    (h : ∃ p ∈ fs, (convertToAttrValue (rawLookup p.1 m) p.2).2 ≠ []) :
    ∃ ds, convertFields fs m = Except.error ds := by
  induction fs with
  | nil => simp at h
  | cons p rest ih =>
      obtain ⟨key, ty⟩ := p
      by_cases hhead : (convertToAttrValue (rawLookup key m) ty).2 = []
      · obtain ⟨q, hq, hqd⟩ := h
        rcases List.mem_cons.mp hq with rfl | hq'
        · exact absurd hhead hqd
        · obtain ⟨ds, hds⟩ := ih ⟨q, hq', hqd⟩
          refine ⟨ds, ?_⟩
          simp [convertFields, List.isEmpty_iff, hhead, hds]
      · refine ⟨(convertToAttrValue (rawLookup key m) ty).2, ?_⟩
        simp [convertFields, List.isEmpty_iff, hhead]

theorem convertListElems_hasType (e : AttrType) (xs : List JSONValue)
    (h : ∀ x ∈ xs, hasType (convertToAttrValue x e).1 e = true) :
    (convertListElems e xs).all (fun v => hasType v e) = true ∧
      (convertListElems e xs).length = xs.length := by
  induction xs with
  | nil => simp [convertListElems]
  | cons x xs ih =>
      have hh := h x (by simp)
      have ht := ih fun y hy => h y (List.mem_cons_of_mem _ hy)
      simp [convertListElems, hh, ht.1, ht.2]

theorem convertZip_hasType : ∀ (xs : List JSONValue) (ts : List AttrType),
    (∀ p ∈ xs.zip ts, hasType (convertToAttrValue p.1 p.2).1 p.2 = true) →
    ((convertZip xs ts).zip ts).all (fun p => hasType p.1 p.2) = true ∧
      (convertZip xs ts).length = min xs.length ts.length := by
  intro xs
  induction xs with
  | nil => intro ts h; cases ts <;> simp [convertZip]
  | cons x xs ih =>
      intro ts h
      cases ts with
      | nil => simp [convertZip]
      | cons ty ts =>
          have hh := h (x, ty) (by simp)
          have ht := ih ts fun q hq => h q (List.mem_cons_of_mem _ hq)
          simp [convertZip, hh, ht.1, ht.2, Nat.succ_min_succ]

theorem newListValue_ok (e : AttrType) (elems : List AttrValue)
    (h : elems.all (fun v => hasType v e) = true) :
    newListValue e elems = (.listV e elems, []) := by
  have : elems.filter (fun v => !hasType v e) = [] := by
    rw [List.filter_eq_nil_iff]
    intro v hv
    simp [List.all_eq_true.mp h v hv]
  simp [newListValue, this]

theorem newTupleValue_ok (ts : List AttrType) (elems : List AttrValue)
    (hlen : elems.length = ts.length)
    (h : (elems.zip ts).all (fun p => hasType p.1 p.2) = true) :
    newTupleValue ts elems = (.tupleV ts elems, []) := by
  have hfil : (elems.zip ts).filter (fun p => !hasType p.1 p.2) = [] := by
    rw [List.filter_eq_nil_iff]
    intro q hq
    simp [List.all_eq_true.mp h q hq]
  simp [newTupleValue, hlen, hfil]

/-- C6: for every Object target descriptor, conversion of a string-keyed
raw value converts exactly the declared fields — a raw key missing from the
declared fields is ignored, and a declared key absent from raw is converted
as if it were explicitly null — and any field conversion error makes the
whole result the typed object null, with no partially filled object; list
and tuple conversion, by contrast, convert every sibling and keep them all
(full length, no whole-value null) even when some element conversions
report errors, provided each element's placeholder carries the element
type. -/
theorem objectAllOrNothing :
    (∀ (fs : List (String × AttrType)) (m : List (String × JSONValue)) k v,
        k ∉ fs.map Prod.fst →
        convertToAttrValue (.jobj ((k, v) :: m)) (.object fs) =
          convertToAttrValue (.jobj m) (.object fs))
    ∧ (∀ (fs : List (String × AttrType)) (m : List (String × JSONValue)) k,
        alookup k m = none →
        convertToAttrValue (.jobj ((k, .jnull) :: m)) (.object fs) =
          convertToAttrValue (.jobj m) (.object fs))
    ∧ (∀ (fs : List (String × AttrType)) (m : List (String × JSONValue)),
        (∃ p ∈ fs, (convertToAttrValue (rawLookup p.1 m) p.2).2 ≠ []) →
        (convertToAttrValue (.jobj m) (.object fs)).1 = .nullV (.object fs))
    ∧ (∀ (e : AttrType) (xs : List JSONValue),
        (∀ x ∈ xs, hasType (convertToAttrValue x e).1 e = true) →
        convertToAttrValue (.jarr xs) (.list e) = (.listV e (convertListElems e xs), [])
        ∧ (convertListElems e xs).length = xs.length)
    ∧ (∀ (ts : List AttrType) (xs : List JSONValue),
        xs.length = ts.length →
        (∀ p ∈ xs.zip ts, hasType (convertToAttrValue p.1 p.2).1 p.2 = true) →
        convertToAttrValue (.jarr xs) (.tuple ts) = (.tupleV ts (convertZip xs ts), [])
        ∧ (convertZip xs ts).length = xs.length) := by
  refine ⟨?_, ?_, ?_, ?_, ?_⟩
  · intro fs m k v hk
    have hcg : convertFields fs ((k, v) :: m) = convertFields fs m := by
      refine convertFields_congr fs _ _ fun p hp => ?_
      have : p.1 ≠ k := by
        rintro rfl
        exact hk (List.mem_map.mpr ⟨p, hp, rfl⟩)
      simp [rawLookup, alookup, this]
    simp [convertToAttrValue, hcg]
  · intro fs m k hnone
    have hcg : convertFields fs ((k, .jnull) :: m) = convertFields fs m := by
      refine convertFields_congr fs _ _ fun p hp => ?_
      by_cases hpk : p.1 = k
      · simp [rawLookup, alookup, hpk, hnone]
      · simp [rawLookup, alookup, hpk]
    simp [convertToAttrValue, hcg]
  · intro fs m hex
    obtain ⟨ds, hds⟩ := convertFields_error fs m hex
    simp [convertToAttrValue, hds]
  · intro e xs h
    obtain ⟨hall, hlen⟩ := convertListElems_hasType e xs h
    refine ⟨?_, hlen⟩
    simp [convertToAttrValue, newListValue_ok e _ hall]
  · intro ts xs hlen h
    obtain ⟨hall, hzlen⟩ := convertZip_hasType xs ts h
    have hzlen' : (convertZip xs ts).length = xs.length := by
      rw [hzlen, hlen]; exact Nat.min_self _
    refine ⟨?_, hzlen'⟩
    have := newTupleValue_ok ts (convertZip xs ts) (by rw [hzlen', hlen]) (by exact hall)
    simp [convertToAttrValue, hlen, this]

theorem objectAllOrNothing_witness :
    ((convertToAttrValue (JSONValue.jstr "x") AttrType.bool).2 ≠ [])
    ∧ (convertToAttrValue (JSONValue.jobj [("a", JSONValue.jstr "x")])
        (AttrType.object [("a", AttrType.bool)])).1 =
        .nullV (.object [("a", AttrType.bool)])
    ∧ convertToAttrValue (JSONValue.jarr [JSONValue.jstr "no", JSONValue.jbool true])
        (AttrType.list AttrType.bool) =
        (.listV .bool [.nullV .bool, .boolV true], [])
    ∧ convertToAttrValue (JSONValue.jobj [("z", JSONValue.jnum 3)])
        (AttrType.object [("a", AttrType.bool)]) =
        convertToAttrValue (JSONValue.jobj []) (AttrType.object [("a", AttrType.bool)]) := by
  refine ⟨by simp [convertToAttrValue], ?_, ?_, ?_⟩
  · refine objectAllOrNothing.2.2.1 [("a", AttrType.bool)] [("a", JSONValue.jstr "x")]
      ⟨("a", AttrType.bool), by simp, ?_⟩
    simp [rawLookup, alookup, convertToAttrValue]
  · have h := (objectAllOrNothing.2.2.2.1 AttrType.bool
      [JSONValue.jstr "no", JSONValue.jbool true] ?_).1
    · rw [h]
      simp [convertListElems, convertToAttrValue]
    · intro x hx
      simp only [List.mem_cons, List.not_mem_nil, or_false] at hx
      rcases hx with rfl | rfl <;>
        simp [convertToAttrValue, hasType, typeOfA, AttrType.beq]
  · exact objectAllOrNothing.1 [("a", AttrType.bool)] [] "z" (JSONValue.jnum 3) (by simp)

theorem sizeOf_strongInd {α : Type} [SizeOf α] {P : α → Prop}
    (step : ∀ x, (∀ y : α, sizeOf y < sizeOf x → P y) → P x) : ∀ x, P x := by
  have key : ∀ n, ∀ x : α, sizeOf x < n → P x := by
    intro n
    induction n with
    | zero => intro x h; omega
    | succ n ih => intro x h; exact step x fun y hy => ih y (by omega)
  exact fun x => key (sizeOf x + 1) x (by omega)

theorem forall₂_mem_right {α β : Type} {R : α → β → Prop} :
    ∀ {l1 : List α} {l2 : List β}, List.Forall₂ R l1 l2 → ∀ {b}, b ∈ l2 →
      ∃ a ∈ l1, R a b := by
  intro l1 l2 h
  induction h with
  | nil => intro b hb; simp at hb
  | cons hab hrest ih =>
      intro b hb
      rcases List.mem_cons.mp hb with rfl | hb'
      · exact ⟨_, by simp, hab⟩
      · obtain ⟨a, ha, hr⟩ := ih hb'
        exact ⟨a, List.mem_cons_of_mem _ ha, hr⟩

theorem forall₂_const_right {α β : Type} {R : α → β → Prop} {t0 : β} :
    ∀ {l1 : List α} {l2 : List β}, List.Forall₂ R l1 l2 → (∀ b ∈ l2, b = t0) →
      ∀ a ∈ l1, R a t0 := by
  intro l1 l2 h
  induction h with
  | nil => intro _ a ha; simp at ha
  | cons hab hrest ih =>
      intro hall a ha
      rcases List.mem_cons.mp ha with rfl | ha'
      · have hb := hall _ (List.mem_cons_self _ _)
        rw [hb] at hab
        exact hab
      · exact ih (fun b hb => hall b (List.mem_cons_of_mem _ hb)) a ha'

theorem forall₂_fst_eq {β γ : Type}
    {R : (String × β) → (String × γ) → Prop}
    (hfst : ∀ p q, R p q → q.1 = p.1) :
    ∀ {l1 : List (String × β)} {l2 : List (String × γ)}, List.Forall₂ R l1 l2 →
      l2.map Prod.fst = l1.map Prod.fst := by
  intro l1 l2 h
  induction h with
  | nil => rfl
  | cons hab hrest ih => simp [hfst _ _ hab, ih]

theorem inferElems_roundtrip (xs : List JSONValue)
    (IH : ∀ x ∈ xs, wfJSON x = true → ∃ t, inferAttrType x = Except.ok t ∧ convOk x t)
    (hwf : wfJSONList xs = true) :
    ∃ ts, inferElems xs = Except.ok ts ∧
      List.Forall₂ (fun x t => inferAttrType x = Except.ok t ∧ convOk x t) xs ts := by
  induction xs with
  | nil => exact ⟨[], by simp [inferElems], List.Forall₂.nil⟩
  | cons x rest ih =>
      simp only [wfJSONList, Bool.and_eq_true] at hwf
      obtain ⟨t, ht, hc⟩ := IH x (by simp) hwf.1
      obtain ⟨ts, hts, hforall⟩ :=
        ih (fun y hy hw => IH y (List.mem_cons_of_mem _ hy) hw) hwf.2
      exact ⟨t :: ts, by simp [inferElems, ht, hts], List.Forall₂.cons ⟨ht, hc⟩ hforall⟩

theorem inferFields_roundtrip (m : List (String × JSONValue))
    (IH : ∀ p ∈ m, wfJSON p.2 = true → ∃ t, inferAttrType p.2 = Except.ok t ∧ convOk p.2 t)
    (hwf : wfJSONFields m = true) :
    ∃ fts, inferFields m = Except.ok fts ∧
      List.Forall₂ (fun (p : String × JSONValue) (q : String × AttrType) =>
        q.1 = p.1 ∧ inferAttrType p.2 = Except.ok q.2 ∧ convOk p.2 q.2) m fts := by
  induction m with
  | nil => exact ⟨[], by simp [inferFields], List.Forall₂.nil⟩
  | cons p rest ih =>
      obtain ⟨k, x⟩ := p
      simp only [wfJSONFields, Bool.and_eq_true] at hwf
      obtain ⟨t, ht, hc⟩ := IH (k, x) (by simp) hwf.1
      obtain ⟨fts, hfts, hforall⟩ :=
        ih (fun q hq hw => IH q (List.mem_cons_of_mem _ hq) hw) hwf.2
      exact ⟨(k, t) :: fts, by simp [inferFields, ht, hfts],
        List.Forall₂.cons ⟨rfl, ht, hc⟩ hforall⟩

theorem convertListElems_mirrors (e : AttrType) (xs : List JSONValue)
    (h : ∀ x ∈ xs, mirrors x (convertToAttrValue x e).1 = true) :
    mirrorsList xs (convertListElems e xs) = true := by
  induction xs with
  | nil => simp [convertListElems, mirrorsList]
  | cons x rest ih =>
      simp [convertListElems, mirrorsList, h x (by simp),
        ih fun y hy => h y (List.mem_cons_of_mem _ hy)]

theorem convertZip_forall₂ {xs : List JSONValue} {ts : List AttrType}
    (h : List.Forall₂ (fun x t => inferAttrType x = Except.ok t ∧ convOk x t) xs ts) :
    ((convertZip xs ts).zip ts).all (fun p => hasType p.1 p.2) = true
    ∧ mirrorsList xs (convertZip xs ts) = true
    ∧ (convertZip xs ts).length = xs.length := by
  induction h with
  | nil => simp [convertZip, mirrorsList]
  | cons hab hrest ih =>
      obtain ⟨hinf, hc⟩ := hab
      simp only [convOk] at hc
      obtain ⟨hd, hht, hm⟩ := hc
      simp [convertZip, mirrorsList, hht, hm, ih.1, ih.2.1, ih.2.2]

theorem convertFields_ok (fs : List (String × AttrType)) (m : List (String × JSONValue))
    (h : ∀ p ∈ fs, (convertToAttrValue (rawLookup p.1 m) p.2).2 = []) :
    convertFields fs m =
      Except.ok (fs.map fun p => (p.1, (convertToAttrValue (rawLookup p.1 m) p.2).1)) := by
  induction fs with
  | nil => simp [convertFields]
  | cons p rest ih =>
      obtain ⟨key, ty⟩ := p
      have hh := h (key, ty) (by simp)
      have hr := ih fun q hq => h q (List.mem_cons_of_mem _ hq)
      simp [convertFields, List.isEmpty_iff, hh, hr]

theorem alookup_map_self {β : Type} (fs : List (String × AttrType))
    (g : String × AttrType → β) (hnd : (fs.map Prod.fst).Nodup) :
    ∀ p ∈ fs, alookup p.1 (fs.map fun q => (q.1, g q)) = some (g p) := by
  induction fs with
  | nil => simp
  | cons q rest ih =>
      simp only [List.map_cons, List.nodup_cons] at hnd
      intro p hp
      rcases List.mem_cons.mp hp with rfl | hp'
      · simp [alookup]
      · have hne : p.1 ≠ q.1 := by
          rintro h
          exact hnd.1 (h ▸ List.mem_map.mpr ⟨p, hp', rfl⟩)
        simp [alookup, hne, ih hnd.2 p hp']

theorem newObjectValue_ok (fs : List (String × AttrType)) (vals : List (String × AttrValue))
    (h1 : ∀ p ∈ fs, ∃ v, alookup p.1 vals = some v ∧ hasType v p.2 = true)
    (h2 : ∀ q ∈ vals, (alookup q.1 fs).isSome = true) :
    newObjectValue fs vals = (.objectV fs vals, []) := by
  have hmiss : fs.filter (fun p => (alookup p.1 vals).isNone) = [] := by
    rw [List.filter_eq_nil_iff]
    intro p hp
    obtain ⟨v, hv, _⟩ := h1 p hp
    simp [hv]
  have hextra : vals.filter (fun q => (alookup q.1 fs).isNone) = [] := by
    rw [List.filter_eq_nil_iff]
    intro q hq
    have h := h2 q hq
    cases halo : alookup q.1 fs with
    | none => rw [halo] at h; simp at h
    | some v => simp [halo]
  have hwrong : fs.filter (fun p =>
      match alookup p.1 vals with
      | some v => !hasType v p.2
      | none => false) = [] := by
    rw [List.filter_eq_nil_iff]
    intro p hp
    obtain ⟨v, hv, hh⟩ := h1 p hp
    simp [hv, hh]
  simp [newObjectValue, hmiss, hextra, hwrong]

theorem mirrorsFields_of_lookup (m : List (String × JSONValue))
    (vals : List (String × AttrValue))
    (h : ∀ p ∈ m, ∃ v, alookup p.1 vals = some v ∧ mirrors p.2 v = true) :
    mirrorsFields m vals = true := by
  induction m with
  | nil => simp [mirrorsFields]
  | cons p rest ih =>
      obtain ⟨k, x⟩ := p
      obtain ⟨v, hv, hm⟩ := h (k, x) (by simp)
      simp [mirrorsFields, hv, hm, ih fun q hq => h q (List.mem_cons_of_mem _ hq)]

theorem roundtrip_aux : ∀ v : JSONValue, wfJSON v = true →
    ∃ t, inferAttrType v = Except.ok t ∧ convOk v t := by
  refine sizeOf_strongInd (fun v IH => ?_)
  intro hwf
  cases v with
  | jnull =>
      exact ⟨.string, by simp [inferAttrType],
        by simp [convOk, convertToAttrValue, hasType, typeOfA, AttrType.beq, mirrors]⟩
  | jbool b =>
      exact ⟨.bool, by simp [inferAttrType],
        by simp [convOk, convertToAttrValue, hasType, typeOfA, AttrType.beq, mirrors]⟩
  | jnum q =>
      exact ⟨.number, by simp [inferAttrType],
        by simp [convOk, convertToAttrValue, hasType, typeOfA, AttrType.beq, mirrors]⟩
  | jstr s =>
      exact ⟨.string, by simp [inferAttrType],
        by simp [convOk, convertToAttrValue, hasType, typeOfA, AttrType.beq, mirrors]⟩
  | junsupported g => simp [wfJSON] at hwf
  | jarr xs =>
      have IHm : ∀ x ∈ xs, wfJSON x = true →
          ∃ t, inferAttrType x = Except.ok t ∧ convOk x t := by
        intro x hx
        refine IH x ?_
        have := List.sizeOf_lt_of_mem hx
        simp only [JSONValue.jarr.sizeOf_spec]
        omega
      have hwl : wfJSONList xs = true := by simpa [wfJSON] using hwf
      obtain ⟨ts, hts, hforall⟩ := inferElems_roundtrip xs IHm hwl
      cases ts with
      | nil =>
          have hxs : xs = [] := List.forall₂_nil_right_iff.mp hforall
          subst hxs
          exact ⟨.list .dynamic, by simp [inferAttrType, inferElems],
            by simp [convOk, convertToAttrValue, convertListElems, newListValue,
              hasType, typeOfA, AttrType.beq, mirrors, mirrorsList]⟩
      | cons t0 ts' =>
          by_cases hhom : ts'.all (fun ty => AttrType.beq ty t0) = true
          · have hinf : inferAttrType (.jarr xs) = Except.ok (.list t0) := by
              simp [inferAttrType, hts, hhom]
            have hall : ∀ ty ∈ t0 :: ts', ty = t0 := by
              intro ty hty
              rcases List.mem_cons.mp hty with rfl | hty'
              · rfl
              · exact (AttrType.beq_iff_eq ty t0).1 (List.all_eq_true.mp hhom ty hty')
            have hconst := forall₂_const_right hforall hall
            have hconv : ∀ x ∈ xs, hasType (convertToAttrValue x t0).1 t0 = true := by
              intro x hx
              have h := (hconst x hx).2
              simp only [convOk] at h
              exact h.2.1
            have hmirs : ∀ x ∈ xs, mirrors x (convertToAttrValue x t0).1 = true := by
              intro x hx
              have h := (hconst x hx).2
              simp only [convOk] at h
              exact h.2.2
            obtain ⟨hallT, hlen⟩ := convertListElems_hasType t0 xs hconv
            refine ⟨.list t0, hinf, ?_⟩
            have hcv : convertToAttrValue (.jarr xs) (.list t0) =
                (.listV t0 (convertListElems t0 xs), []) := by
              simp [convertToAttrValue, newListValue_ok t0 _ hallT]
            simp only [convOk, hcv]
            exact ⟨trivial, by simp [hasType, typeOfA, AttrType.beq, AttrType.beq_refl],
              by simp [mirrors, convertListElems_mirrors t0 xs hmirs]⟩
          · have hinf : inferAttrType (.jarr xs) = Except.ok (.tuple (t0 :: ts')) := by
              simp [inferAttrType, hts, hhom]
            obtain ⟨hallz, hmirz, hlenz⟩ := convertZip_forall₂ hforall
            have hlen : xs.length = (t0 :: ts').length := hforall.length_eq
            refine ⟨.tuple (t0 :: ts'), hinf, ?_⟩
            have hnt := newTupleValue_ok (t0 :: ts') (convertZip xs (t0 :: ts'))
              (by rw [hlenz, hlen]) hallz
            have hcv : convertToAttrValue (.jarr xs) (.tuple (t0 :: ts')) =
                (.tupleV (t0 :: ts') (convertZip xs (t0 :: ts')), []) := by
              simp [convertToAttrValue, hlen, hnt]
            simp only [convOk, hcv]
            exact ⟨trivial, by simp [hasType, typeOfA, AttrType.beq_refl],
              by simp [mirrors, hmirz]⟩
  | jobj m =>
      simp only [wfJSON, Bool.and_eq_true] at hwf
      have hnd : (m.map Prod.fst).Nodup := (nodupKeys_iff m).1 hwf.1
      have IHm : ∀ p ∈ m, wfJSON p.2 = true →
          ∃ t, inferAttrType p.2 = Except.ok t ∧ convOk p.2 t := by
        intro p hp
        refine IH p.2 ?_
        have h1 := List.sizeOf_lt_of_mem hp
        have h2 : sizeOf p.2 < sizeOf p := by
          obtain ⟨k, x⟩ := p
          simp
        simp only [JSONValue.jobj.sizeOf_spec]
        omega
      obtain ⟨fts, hfts, hforall⟩ := inferFields_roundtrip m IHm hwf.2
      have hperm : (sortFields fts).Perm fts := sortFields_perm fts
      have hkeys : fts.map Prod.fst = m.map Prod.fst :=
        forall₂_fst_eq (fun p q h => h.1) hforall
      have hkeysperm : ((sortFields fts).map Prod.fst).Perm (m.map Prod.fst) := by
        rw [← hkeys]
        exact hperm.map Prod.fst
      have hndfs : ((sortFields fts).map Prod.fst).Nodup := hkeysperm.nodup_iff.2 hnd
      have hfield : ∀ p ∈ sortFields fts,
          inferAttrType (rawLookup p.1 m) = Except.ok p.2 ∧ convOk (rawLookup p.1 m) p.2 := by
        intro p hp
        have hpfts : p ∈ fts := hperm.mem_iff.1 hp
        obtain ⟨a, ha, hrel⟩ := forall₂_mem_right hforall hpfts
        have hlook : alookup p.1 m = some a.2 := by
          rw [hrel.1]
          exact alookup_eq_of_mem_nodup hnd ha
        have hraw : rawLookup p.1 m = a.2 := by simp [rawLookup, hlook]
        rw [hraw]
        exact ⟨hrel.2.1, hrel.2.2⟩
      have hdiags : ∀ p ∈ sortFields fts, (convertToAttrValue (rawLookup p.1 m) p.2).2 = [] := by
        intro p hp
        have h := (hfield p hp).2
        simp only [convOk] at h
        exact h.1
      have hcf := convertFields_ok (sortFields fts) m hdiags
      have hlookv := alookup_map_self (sortFields fts)
        (fun q => (convertToAttrValue (rawLookup q.1 m) q.2).1) hndfs
      have hno := newObjectValue_ok (sortFields fts)
          ((sortFields fts).map fun q => (q.1, (convertToAttrValue (rawLookup q.1 m) q.2).1))
          ?_ ?_
      rotate_left
      · intro p hp
        refine ⟨(convertToAttrValue (rawLookup p.1 m) p.2).1, hlookv p hp, ?_⟩
        have h := (hfield p hp).2
        simp only [convOk] at h
        exact h.2.1
      · intro q hq
        obtain ⟨p, hp, hpq⟩ := List.mem_map.mp hq
        rw [alookup_isSome_iff]
        exact List.mem_map.mpr ⟨p, hp, by rw [← hpq]⟩
      have hinf : inferAttrType (.jobj m) = Except.ok (.object (sortFields fts)) := by
        simp [inferAttrType, hfts]
      have hcv : convertToAttrValue (.jobj m) (.object (sortFields fts)) =
          (.objectV (sortFields fts)
            ((sortFields fts).map fun q => (q.1, (convertToAttrValue (rawLookup q.1 m) q.2).1)),
           []) := by
        simp only [convertToAttrValue, hcf]
        exact hno
      refine ⟨.object (sortFields fts), hinf, ?_⟩
      simp only [convOk, hcv]
      refine ⟨trivial, by simp [hasType, typeOfA, AttrType.beq_refl], ?_⟩
      simp only [mirrors, Bool.and_eq_true]
      constructor
      · rw [List.all_eq_true]
        intro q hq
        obtain ⟨p, hp, hpq⟩ := List.mem_map.mp hq
        have hmem : q.1 ∈ m.map Prod.fst := by
          rw [← hpq]
          exact hkeysperm.mem_iff.1 (List.mem_map.mpr ⟨p, hp, rfl⟩)
        simpa using (alookup_isSome_iff q.1 m).2 hmem
      · refine mirrorsFields_of_lookup m _ ?_
        intro p hp
        have hpk : p.1 ∈ (sortFields fts).map Prod.fst :=
          hkeysperm.mem_iff.2 (List.mem_map.mpr ⟨p, hp, rfl⟩)
        obtain ⟨q, hq, hq1⟩ := List.mem_map.mp hpk
        have hraw : rawLookup q.1 m = p.2 := by
          have hl : alookup p.1 m = some p.2 := alookup_eq_of_mem_nodup hnd hp
          rw [hq1]
          simp [rawLookup, hl]
        refine ⟨(convertToAttrValue (rawLookup q.1 m) q.2).1, ?_, ?_⟩
        · rw [← hq1]
          exact hlookv q hq
        · have h := (hfield q hq).2
          simp only [convOk] at h
          rw [hraw] at h ⊢
          exact h.2.2

/-- C1: for every JSON value built only from the supported kinds (null,
bool, number, string, array, string-keyed object with duplicate-free keys),
inferring its type descriptor succeeds, converting the value against that
descriptor succeeds with zero error-severity diagnostics, and the resulting
typed value's shape (kind at every recursion level, sequence lengths,
object key sets, scalar payloads) exactly mirrors the raw value. -/
theorem infer_convert_roundtrip (v : JSONValue) (h : wfJSON v = true) :
    ∃ t, inferAttrType v = Except.ok t ∧ (convertToAttrValue v t).2 = [] ∧
      mirrors v (convertToAttrValue v t).1 = true := by
  obtain ⟨t, hinf, hc⟩ := roundtrip_aux v h
  simp only [convOk] at hc
  exact ⟨t, hinf, hc.1, hc.2.2⟩

theorem infer_convert_roundtrip_witness :
    (wfJSON (JSONValue.jobj [("a", JSONValue.jnum 1),
        ("b", JSONValue.jarr [JSONValue.jstr "x", JSONValue.jstr "y"])]) = true)
    ∧ inferAttrType (JSONValue.jobj [("a", JSONValue.jnum 1),
        ("b", JSONValue.jarr [JSONValue.jstr "x", JSONValue.jstr "y"])]) =
      Except.ok (.object [("a", .number), ("b", .list .string)])
    ∧ (convertToAttrValue (JSONValue.jobj [("a", JSONValue.jnum 1),
        ("b", JSONValue.jarr [JSONValue.jstr "x", JSONValue.jstr "y"])])
        (.object [("a", .number), ("b", .list .string)])).2 = []
    ∧ mirrors (JSONValue.jobj [("a", JSONValue.jnum 1),
        ("b", JSONValue.jarr [JSONValue.jstr "x", JSONValue.jstr "y"])])
        (convertToAttrValue (JSONValue.jobj [("a", JSONValue.jnum 1),
          ("b", JSONValue.jarr [JSONValue.jstr "x", JSONValue.jstr "y"])])
          (.object [("a", .number), ("b", .list .string)])).1 = true := by
  have hwf : wfJSON (JSONValue.jobj [("a", JSONValue.jnum 1),
      ("b", JSONValue.jarr [JSONValue.jstr "x", JSONValue.jstr "y"])]) = true := by
    simp [wfJSON, wfJSONFields, wfJSONList, nodupKeys]
  have hT : inferAttrType (JSONValue.jobj [("a", JSONValue.jnum 1),
      ("b", JSONValue.jarr [JSONValue.jstr "x", JSONValue.jstr "y"])]) =
      Except.ok (.object [("a", .number), ("b", .list .string)]) := by
    simp [inferAttrType, inferFields, inferElems, AttrType.beq, sortFields, insertField]
    decide
  obtain ⟨t, hinf, hd, hm⟩ := infer_convert_roundtrip _ hwf
  rw [hT] at hinf
  injection hinf with hinf
  subst hinf
  exact ⟨hwf, hT, hd, hm⟩

end Terrakube
